import Mathlib

/-!
Shallow embedding of the `malloc_buf` crate (`src/lib.rs`).

Memory is modelled per element: a heap `mem : Nat → T` maps the address of the
`i`-th element of a buffer based at `ptr` (namely `ptr + i`) to its value.
Pointers are plain addresses (`Nat`); the null pointer is address `0`.
A C string is modelled by the finite list `bytes : List Nat` of the byte
contents of memory starting at the given pointer (each entry `< 256`; the
precondition of `from_c_str` guarantees a terminating `0` occurs in it).
Deallocation is observed through traces: each operation reports the list of
addresses it passes to `libc.free`.
-/

/-- The sentinel address: `const DUMMY_PTR: *mut c_void = 0x1 as *mut c_void`
(`src/lib.rs:12`). -/
def DUMMY_PTR : Nat := 0x1

/-- The stored raw pointer of a `Malloc<T>` handle (`src/lib.rs:15-17`), split
into its address part and, for the unsized pointees `[T]` and `str`, the
length metadata of the fat pointer produced by `slice::from_raw_parts` /
`str::from_utf8`. -/
structure Malloc where
  ptr : Nat
  len : Nat
deriving DecidableEq, Repr

/-- Embedding of `Malloc::from_array(ptr, len)` (`src/lib.rs:28-37`): match on
`(ptr.is_null(), len)`; a null pointer with length `0` is replaced by
`DUMMY_PTR`, a null pointer with nonzero length yields `None`, and otherwise
the slice `from_raw_parts(ptr, len)` is stored. -/
def from_array (ptr : Nat) (len : Nat) : Option Malloc :=
  match ptr == 0, len with
  | true, 0 => some { ptr := DUMMY_PTR, len := 0 }
  | true, _ => none
  | false, _ => some { ptr := ptr, len := len }

/-- The contents of memory `mem` at addresses `ptr, ptr + 1, …, ptr + len - 1`:
the value of the slice `from_raw_parts(ptr, len)` under heap `mem`. -/
def readSlice {T : Type} (mem : Nat → T) (ptr len : Nat) : List T :=
  (List.range len).map fun i => mem (ptr + i)

/-- Embedding of `Deref for Malloc<T>` (`src/lib.rs:51-57`): `&*self.ptr`, the view of
the stored fat pointer under the current heap `mem`. -/
def Malloc.deref {T : Type} (mem : Nat → T) (m : Malloc) : List T :=
  readSlice mem m.ptr m.len

/-- Embedding of `Drop for Malloc<T>` (`src/lib.rs:59-68`): the addresses passed to
`libc::free` by the destructor. The stored pointer is cast to its address
(`self.ptr as *mut c_void`) and freed unless it equals `DUMMY_PTR`. -/
def Malloc.drop (m : Malloc) : List Nat :=
  let ptr := m.ptr
  if ptr ≠ DUMMY_PTR then [ptr] else []

/-- Embedding of `core::str::Utf8Error`: `valid_up_to` is the byte index at which the first
invalid sequence begins; `error_len` is its length when known. -/
structure Utf8Error where
  valid_up_to : Nat
  error_len : Option Nat
deriving DecidableEq, Repr

/-- Embedding of `core::str::utf8_char_width`: the expected encoding width determined by a
lead byte (`0` for bytes that cannot begin a character). -/
def utf8_char_width (b : Nat) : Nat :=
  if b < 0x80 then 1
  else if b < 0xC2 then 0
  else if b < 0xE0 then 2
  else if b < 0xF0 then 3
  else if b < 0xF5 then 4
  else 0

/-- A UTF-8 continuation byte, `0x80..=0xBF` (in the Rust validator this is the
test `(byte as i8) < -64`). -/
def utf8_is_cont_byte (b : Nat) : Bool :=
  decide (0x80 ≤ b) && decide (b ≤ 0xBF)

/-- The allowed second byte of a three-byte sequence, by lead byte: the match
arms `(0xE0, 0xA0..=0xBF) | (0xE1..=0xEC, 0x80..=0xBF) | (0xED, 0x80..=0x9F) |
(0xEE..=0xEF, 0x80..=0xBF)` of the Rust validator. -/
def utf8_valid_second_of_three (first b2 : Nat) : Bool :=
  (first == 0xE0 && decide (0xA0 ≤ b2) && decide (b2 ≤ 0xBF)) ||
  (decide (0xE1 ≤ first) && decide (first ≤ 0xEC) && utf8_is_cont_byte b2) ||
  (first == 0xED && decide (0x80 ≤ b2) && decide (b2 ≤ 0x9F)) ||
  (decide (0xEE ≤ first) && decide (first ≤ 0xEF) && utf8_is_cont_byte b2)

/-- The allowed second byte of a four-byte sequence, by lead byte: the match
arms `(0xF0, 0x90..=0xBF) | (0xF1..=0xF3, 0x80..=0xBF) | (0xF4, 0x80..=0x8F)`
of the Rust validator. -/
def utf8_valid_second_of_four (first b2 : Nat) : Bool :=
  (first == 0xF0 && decide (0x90 ≤ b2) && decide (b2 ≤ 0xBF)) ||
  (decide (0xF1 ≤ first) && decide (first ≤ 0xF3) && utf8_is_cont_byte b2) ||
  (first == 0xF4 && decide (0x80 ≤ b2) && decide (b2 ≤ 0x8F))

/-- Embedding of `core::str::run_utf8_validation` on the byte list `v`, with `index` the
absolute offset of `v`s head in the full input. Returns `Except.ok ()` on
well-formed input, and otherwise the `Utf8Error` whose `valid_up_to` is the
offset `old_offset` of the lead byte of the offending sequence and whose
`error_len` is `none` exactly when the input ends mid-sequence. -/
def run_utf8_validation (v : List Nat) (index : Nat) : Except Utf8Error Unit :=
  match v with
  | [] => .ok ()
  | first :: rest =>
    if first < 0x80 then
      run_utf8_validation rest (index + 1)
    else if utf8_char_width first = 2 then
      match rest with
      | [] => .error ⟨index, none⟩
      | b2 :: rest2 =>
        if utf8_is_cont_byte b2 then run_utf8_validation rest2 (index + 2)
        else .error ⟨index, some 1⟩
    else if utf8_char_width first = 3 then
      match rest with
      | [] => .error ⟨index, none⟩
      | b2 :: rest2 =>
        if utf8_valid_second_of_three first b2 then
          match rest2 with
          | [] => .error ⟨index, none⟩
          | b3 :: rest3 =>
            if utf8_is_cont_byte b3 then run_utf8_validation rest3 (index + 3)
            else .error ⟨index, some 2⟩
        else .error ⟨index, some 1⟩
    else if utf8_char_width first = 4 then
      match rest with
      | [] => .error ⟨index, none⟩
      | b2 :: rest2 =>
        if utf8_valid_second_of_four first b2 then
          match rest2 with
          | [] => .error ⟨index, none⟩
          | b3 :: rest3 =>
            if utf8_is_cont_byte b3 then
              match rest3 with
              | [] => .error ⟨index, none⟩
              | b4 :: rest4 =>
                if utf8_is_cont_byte b4 then run_utf8_validation rest4 (index + 4)
                else .error ⟨index, some 3⟩
            else .error ⟨index, some 2⟩
        else .error ⟨index, some 1⟩
    else .error ⟨index, some 1⟩

/-- Embedding of `core::str::from_utf8`: validate and hand back the same byte slice as a
`str` view. -/
def from_utf8 (v : List Nat) : Except Utf8Error (List Nat) :=
  match run_utf8_validation v 0 with
  | .ok _ => .ok v
  | .error e => .error e

/-- Embedding of `libc::strlen` on the byte contents `bytes` of memory at the argument
pointer: the number of bytes before the first `0` byte. -/
def strlen (bytes : List Nat) : Nat :=
  (bytes.takeWhile fun b => b ≠ 0).length

/-- Embedding of `Malloc::from_c_str(ptr)` (`src/lib.rs:41-48`), where `bytes` is the byte
contents of memory starting at address `ptr`. The first component is the
returned `Result`: the length is computed by `strlen`, the slice
`from_raw_parts(ptr, len)` is validated by `str::from_utf8`, and on success
the resulting `str` (same address, `len` bytes) is stored in the handle.
The second component is the list of addresses the call passes to `libc::free`:
the body performs no deallocation, so it is empty on both paths. -/
def from_c_str (ptr : Nat) (bytes : List Nat) :
    Except Utf8Error Malloc × List Nat :=
  let len := strlen bytes
  let slice := bytes.take len
  ((from_utf8 slice).map fun _s => { ptr := ptr, len := len }, [])

/-- The two dereference capabilities a Rust type can offer. -/
inductive BorrowKind
  | shared
  | mutable
deriving DecidableEq, Repr

/-- The dereference traits implemented for `Malloc<T>` in the source: exactly
one impl, `Deref` (`src/lib.rs:51-57`); there is no `DerefMut` impl. -/
def implementedBorrows : List BorrowKind := [BorrowKind.shared]

/-- Modelled from the spec: a single well-formed UTF-8 encoded character, per
Table 3-7 of the Unicode standard (the byte-range table of well-formed UTF-8
sequences), which the notion of "well-formed UTF-8 text" in the spec refers to. -/
def utf8Char : List Nat → Bool
  | [a] => decide (a < 0x80)
  | [a, b] => decide (0xC2 ≤ a) && decide (a ≤ 0xDF) && utf8_is_cont_byte b
  | [a, b, c] => utf8_valid_second_of_three a b && utf8_is_cont_byte c
  | [a, b, c, d] =>
    utf8_valid_second_of_four a b && utf8_is_cont_byte c && utf8_is_cont_byte d
  | _ => false

/-- Modelled from the spec: a byte list is well-formed UTF-8 text when it is a
concatenation of well-formed encoded characters. -/
inductive ValidUtf8 : List Nat → Prop
  | nil : ValidUtf8 []
  | cons (c rest : List Nat) : utf8Char c = true → ValidUtf8 rest →
      ValidUtf8 (c ++ rest)

/-- A byte list begins with some well-formed UTF-8 encoded character. -/
def StartsWithChar (s : List Nat) : Prop :=
  ∃ c r, utf8Char c = true ∧ s = c ++ r

/-- The first invalid UTF-8 byte sequence of `bs` begins at byte offset `k`:
the bytes before `k` decompose into well-formed characters, and no well-formed
character begins at `k` (while bytes do remain there). -/
def FirstBadAt (bs : List Nat) (k : Nat) : Prop :=
  ∃ pre suf, bs = pre ++ suf ∧ pre.length = k ∧ ValidUtf8 pre ∧
    suf ≠ [] ∧ ¬ StartsWithChar suf

/-! ### Helper lemmas about the byte classification functions -/

theorem utf8_char_width_eq_two {a : Nat} :
    utf8_char_width a = 2 ↔ 0xC2 ≤ a ∧ a < 0xE0 := by
  unfold utf8_char_width; split_ifs <;> constructor <;> intro h <;> (try exact h.elim) <;> omega

theorem utf8_char_width_eq_three {a : Nat} :
    utf8_char_width a = 3 ↔ 0xE0 ≤ a ∧ a < 0xF0 := by
  unfold utf8_char_width; split_ifs <;> constructor <;> intro h <;> (try exact h.elim) <;> omega

theorem utf8_char_width_eq_four {a : Nat} :
    utf8_char_width a = 4 ↔ 0xF0 ≤ a ∧ a < 0xF5 := by
  unfold utf8_char_width; split_ifs <;> constructor <;> intro h <;> (try exact h.elim) <;> omega

theorem utf8_valid_second_of_three_bounds {a b : Nat}
    (h : utf8_valid_second_of_three a b = true) :
    0xE0 ≤ a ∧ a ≤ 0xEF ∧ 0x80 ≤ b ∧ b ≤ 0xBF := by
  simp [utf8_valid_second_of_three, utf8_is_cont_byte] at h
  omega

theorem utf8_valid_second_of_four_bounds {a b : Nat}
    (h : utf8_valid_second_of_four a b = true) :
    0xF0 ≤ a ∧ a ≤ 0xF4 ∧ 0x80 ≤ b ∧ b ≤ 0xBF := by
  simp [utf8_valid_second_of_four, utf8_is_cont_byte] at h
  omega

theorem utf8Char_nil : utf8Char [] = false := rfl

/-- Decomposition of "some well-formed character starts here" by the
four possible byte lengths of the character. -/
theorem startsWithChar_iff {a : Nat} {t : List Nat} :
    StartsWithChar (a :: t) ↔
      utf8Char [a] = true ∨
      (∃ b t2, t = b :: t2 ∧ utf8Char [a, b] = true) ∨
      (∃ b c t3, t = b :: c :: t3 ∧ utf8Char [a, b, c] = true) ∨
      (∃ b c d t4, t = b :: c :: d :: t4 ∧ utf8Char [a, b, c, d] = true) := by
  constructor
  · rintro ⟨c, r, hc, heq⟩
    rcases c with _ | ⟨x1, _ | ⟨x2, _ | ⟨x3, _ | ⟨x4, _ | ⟨x5, c5⟩⟩⟩⟩⟩
    · exact absurd hc (by simp [utf8Char])
    · simp only [List.cons_append, List.nil_append] at heq
      injection heq with h1 h2
      subst h1; subst h2
      exact Or.inl hc
    · simp only [List.cons_append, List.nil_append] at heq
      injection heq with h1 h2
      subst h1
      exact Or.inr (Or.inl ⟨x2, r, h2, hc⟩)
    · simp only [List.cons_append, List.nil_append] at heq
      injection heq with h1 h2
      subst h1
      exact Or.inr (Or.inr (Or.inl ⟨x2, x3, r, h2, hc⟩))
    · simp only [List.cons_append, List.nil_append] at heq
      injection heq with h1 h2
      subst h1
      exact Or.inr (Or.inr (Or.inr ⟨x2, x3, x4, r, h2, hc⟩))
    · exact absurd hc (by simp [utf8Char])
  · rintro (h | ⟨b, t2, ht, h⟩ | ⟨b, c, t3, ht, h⟩ | ⟨b, c, d, t4, ht, h⟩)
    · exact ⟨[a], t, h, rfl⟩
    · exact ⟨[a, b], t2, h, by rw [ht]; rfl⟩
    · exact ⟨[a, b, c], t3, h, by rw [ht]; rfl⟩
    · exact ⟨[a, b, c, d], t4, h, by rw [ht]; rfl⟩

theorem utf8_char_width_eq_zero {a : Nat} :
    utf8_char_width a = 0 ↔ (0x80 ≤ a ∧ a < 0xC2) ∨ 0xF5 ≤ a := by
  unfold utf8_char_width
  split_ifs <;> constructor <;> intro h <;> (try exact h.elim) <;> omega

/-- No well-formed character starts at a byte of width class `0`. -/
theorem not_startsWithChar_zero {a : Nat} {t : List Nat}
    (hw : utf8_char_width a = 0) : ¬ StartsWithChar (a :: t) := by
  rw [utf8_char_width_eq_zero] at hw
  rw [startsWithChar_iff]
  rintro (h | ⟨b, t2, ht, h⟩ | ⟨b, c, t3, ht, h⟩ | ⟨b, c, d, t4, ht, h⟩) <;>
    simp [utf8Char, utf8_valid_second_of_three, utf8_valid_second_of_four,
      utf8_is_cont_byte] at h <;> omega

/-- No well-formed character starts at a two-byte lead whose continuation is
missing or malformed. -/
theorem not_startsWithChar_two {a : Nat} {t : List Nat}
    (hw : utf8_char_width a = 2)
    (hbad : ∀ b t2, t = b :: t2 → utf8_is_cont_byte b = false) :
    ¬ StartsWithChar (a :: t) := by
  rw [utf8_char_width_eq_two] at hw
  rw [startsWithChar_iff]
  rintro (h | ⟨b, t2, ht, h⟩ | ⟨b, c, t3, ht, h⟩ | ⟨b, c, d, t4, ht, h⟩)
  · simp [utf8Char] at h; omega
  · rw [show utf8Char [a, b] =
        (decide (0xC2 ≤ a) && decide (a ≤ 0xDF) && utf8_is_cont_byte b)
      from rfl, hbad b t2 ht] at h
    simp at h
  · simp [utf8Char, utf8_valid_second_of_three, utf8_is_cont_byte] at h
    omega
  · simp [utf8Char, utf8_valid_second_of_four, utf8_is_cont_byte] at h
    omega

/-- No well-formed character starts at a three-byte lead whose continuation
bytes are missing or malformed. -/
theorem not_startsWithChar_three {a : Nat} {t : List Nat}
    (hw : utf8_char_width a = 3)
    (hbad : ∀ b t2, t = b :: t2 →
      utf8_valid_second_of_three a b = false ∨
        ∀ c t3, t2 = c :: t3 → utf8_is_cont_byte c = false) :
    ¬ StartsWithChar (a :: t) := by
  rw [utf8_char_width_eq_three] at hw
  rw [startsWithChar_iff]
  rintro (h | ⟨b, t2, ht, h⟩ | ⟨b, c, t3, ht, h⟩ | ⟨b, c, d, t4, ht, h⟩)
  · simp [utf8Char] at h; omega
  · simp [utf8Char, utf8_is_cont_byte] at h; omega
  · rw [show utf8Char [a, b, c] =
        (utf8_valid_second_of_three a b && utf8_is_cont_byte c) from rfl] at h
    rcases hbad b (c :: t3) ht with hb | hb
    · rw [hb] at h; simp at h
    · rw [hb c t3 rfl] at h; simp at h
  · simp [utf8Char, utf8_valid_second_of_four, utf8_is_cont_byte] at h
    omega

/-- No well-formed character starts at a four-byte lead whose continuation
bytes are missing or malformed. -/
theorem not_startsWithChar_four {a : Nat} {t : List Nat}
    (hw : utf8_char_width a = 4)
    (hbad : ∀ b t2, t = b :: t2 →
      utf8_valid_second_of_four a b = false ∨
        ∀ c t3, t2 = c :: t3 → utf8_is_cont_byte c = false ∨
          ∀ d t4, t3 = d :: t4 → utf8_is_cont_byte d = false) :
    ¬ StartsWithChar (a :: t) := by
  rw [utf8_char_width_eq_four] at hw
  rw [startsWithChar_iff]
  rintro (h | ⟨b, t2, ht, h⟩ | ⟨b, c, t3, ht, h⟩ | ⟨b, c, d, t4, ht, h⟩)
  · simp [utf8Char] at h; omega
  · simp [utf8Char, utf8_is_cont_byte] at h; omega
  · simp [utf8Char, utf8_valid_second_of_three, utf8_is_cont_byte] at h
    omega
  · rw [show utf8Char [a, b, c, d] =
        (utf8_valid_second_of_four a b && utf8_is_cont_byte c &&
          utf8_is_cont_byte d) from rfl] at h
    rcases hbad b (c :: d :: t4) ht with hb | hb
    · rw [hb] at h; simp at h
    · rcases hb c (d :: t4) rfl with hc | hc
      · rw [hc] at h; simp at h
      · rw [hc d t4 rfl] at h; simp at h

/-- Validating a well-formed character followed by anything advances the index
past the character and continues. -/
theorem run_utf8_validation_char_step {c : List Nat} (hc : utf8Char c = true)
    (rest : List Nat) (i : Nat) :
    run_utf8_validation (c ++ rest) i =
      run_utf8_validation rest (i + c.length) := by
  rcases c with _ | ⟨a, _ | ⟨b, _ | ⟨c3, _ | ⟨d, _ | ⟨e, tail⟩⟩⟩⟩⟩
  · exact absurd hc (by simp [utf8Char])
  · simp only [utf8Char, decide_eq_true_eq] at hc
    simp only [List.cons_append, List.nil_append, List.length_cons,
      List.length_nil]
    rw [run_utf8_validation.eq_def]
    dsimp only
    rw [if_pos hc]
  · simp only [utf8Char, Bool.and_eq_true, decide_eq_true_eq] at hc
    obtain ⟨⟨h1, h2⟩, h3⟩ := hc
    simp only [List.cons_append, List.nil_append, List.length_cons,
      List.length_nil]
    rw [run_utf8_validation.eq_def]
    dsimp only
    rw [if_neg (by omega), if_pos (utf8_char_width_eq_two.mpr ⟨h1, by omega⟩),
      if_pos h3]
  · simp only [utf8Char, Bool.and_eq_true] at hc
    obtain ⟨hs, h3⟩ := hc
    have hb := utf8_valid_second_of_three_bounds hs
    simp only [List.cons_append, List.nil_append, List.length_cons,
      List.length_nil]
    rw [run_utf8_validation.eq_def]
    dsimp only
    rw [if_neg (by omega), if_neg (by rw [utf8_char_width_eq_two]; omega),
      if_pos (utf8_char_width_eq_three.mpr (by omega)), if_pos hs, if_pos h3]
  · simp only [utf8Char, Bool.and_eq_true] at hc
    obtain ⟨⟨hs, h3⟩, h4⟩ := hc
    have hb := utf8_valid_second_of_four_bounds hs
    simp only [List.cons_append, List.nil_append, List.length_cons,
      List.length_nil]
    rw [run_utf8_validation.eq_def]
    dsimp only
    rw [if_neg (by omega), if_neg (by rw [utf8_char_width_eq_two]; omega),
      if_neg (by rw [utf8_char_width_eq_three]; omega),
      if_pos (utf8_char_width_eq_four.mpr (by omega)), if_pos hs, if_pos h3,
      if_pos h4]
  · exact absurd hc (by simp [utf8Char])

/-- The validator accepts every well-formed byte list, from any base index. -/
theorem valid_run_ok {bs : List Nat} (h : ValidUtf8 bs) :
    ∀ i, run_utf8_validation bs i = .ok () := by
  induction h with
  | nil => intro i; rfl
  | cons c rest hc _ ih =>
    intro i
    rw [run_utf8_validation_char_step hc]
    exact ih _

/-- Every byte list the validator accepts is well-formed UTF-8 (stated with an
explicit length bound to drive the induction). -/
theorem run_ok_valid_aux :
    ∀ (n : Nat) (bs : List Nat) (i : Nat), bs.length ≤ n →
      run_utf8_validation bs i = .ok () → ValidUtf8 bs := by
  intro n
  induction n with
  | zero =>
    intro bs i hl _
    rw [List.length_eq_zero.mp (Nat.le_zero.mp hl)]
    exact .nil
  | succ n ih =>
    intro bs i hl h
    rcases bs with _ | ⟨a, rest⟩
    · exact .nil
    rw [run_utf8_validation.eq_def] at h
    dsimp only at h
    by_cases ha : a < 0x80
    · rw [if_pos ha] at h
      have hrest := ih rest (i + 1) (by simp only [List.length_cons] at hl; omega) h
      exact .cons [a] rest (by simpa [utf8Char] using ha) hrest
    rw [if_neg ha] at h
    by_cases h2 : utf8_char_width a = 2
    · rw [if_pos h2] at h
      rcases rest with _ | ⟨b2, rest2⟩
      · simp at h
      dsimp only at h
      by_cases hb : utf8_is_cont_byte b2 = true
      · rw [if_pos hb] at h
        have hrest := ih rest2 (i + 2)
          (by simp only [List.length_cons] at hl; omega) h
        have hw := utf8_char_width_eq_two.mp h2
        exact .cons [a, b2] rest2 (by simp [utf8Char, hb]; omega) hrest
      · rw [if_neg hb] at h; simp at h
    rw [if_neg h2] at h
    by_cases h3 : utf8_char_width a = 3
    · rw [if_pos h3] at h
      rcases rest with _ | ⟨b2, rest2⟩
      · simp at h
      dsimp only at h
      by_cases hs : utf8_valid_second_of_three a b2 = true
      · rw [if_pos hs] at h
        rcases rest2 with _ | ⟨b3, rest3⟩
        · simp at h
        dsimp only at h
        by_cases hc3 : utf8_is_cont_byte b3 = true
        · rw [if_pos hc3] at h
          have hrest := ih rest3 (i + 3)
            (by simp only [List.length_cons] at hl; omega) h
          exact .cons [a, b2, b3] rest3 (by simp [utf8Char, hs, hc3]) hrest
        · rw [if_neg hc3] at h; simp at h
      · rw [if_neg hs] at h; simp at h
    rw [if_neg h3] at h
    by_cases h4 : utf8_char_width a = 4
    · rw [if_pos h4] at h
      rcases rest with _ | ⟨b2, rest2⟩
      · simp at h
      dsimp only at h
      by_cases hs : utf8_valid_second_of_four a b2 = true
      · rw [if_pos hs] at h
        rcases rest2 with _ | ⟨b3, rest3⟩
        · simp at h
        dsimp only at h
        by_cases hc3 : utf8_is_cont_byte b3 = true
        · rw [if_pos hc3] at h
          rcases rest3 with _ | ⟨b4, rest4⟩
          · simp at h
          dsimp only at h
          by_cases hc4 : utf8_is_cont_byte b4 = true
          · rw [if_pos hc4] at h
            have hrest := ih rest4 (i + 4)
              (by simp only [List.length_cons] at hl; omega) h
            exact .cons [a, b2, b3, b4] rest4
              (by simp [utf8Char, hs, hc3, hc4]) hrest
          · rw [if_neg hc4] at h; simp at h
        · rw [if_neg hc3] at h; simp at h
      · rw [if_neg hs] at h; simp at h
    rw [if_neg h4] at h
    simp at h

/-- Every byte list the validator accepts is well-formed UTF-8. -/
theorem run_ok_valid {bs : List Nat} {i : Nat}
    (h : run_utf8_validation bs i = .ok ()) : ValidUtf8 bs :=
  run_ok_valid_aux bs.length bs i le_rfl h

/-- When the validator rejects, `valid_up_to` marks the first point at which
no well-formed character begins: the bytes before it are well-formed UTF-8 and
bytes remain there, none of whose prefixes is a well-formed character. -/
theorem run_error_decomp :
    ∀ (n : Nat) (bs : List Nat) (i : Nat) (e : Utf8Error), bs.length ≤ n →
      run_utf8_validation bs i = .error e →
      ∃ pre suf, bs = pre ++ suf ∧ ValidUtf8 pre ∧
        e.valid_up_to = i + pre.length ∧ suf ≠ [] ∧ ¬ StartsWithChar suf := by
  intro n
  induction n with
  | zero =>
    intro bs i e hl h
    rw [List.length_eq_zero.mp (Nat.le_zero.mp hl)] at h
    exact absurd h (by simp [run_utf8_validation])
  | succ n ih =>
    intro bs i e hl h
    rcases bs with _ | ⟨a, rest⟩
    · exact absurd h (by simp [run_utf8_validation])
    rw [run_utf8_validation.eq_def] at h
    dsimp only at h
    by_cases ha : a < 0x80
    · rw [if_pos ha] at h
      obtain ⟨pre, suf, hsplit, hvp, hvut, hsne, hnsc⟩ :=
        ih rest (i + 1) e (by simp only [List.length_cons] at hl; omega) h
      refine ⟨[a] ++ pre, suf, by simp [hsplit], ?_, ?_, hsne, hnsc⟩
      · exact .cons [a] pre (by simpa [utf8Char] using ha) hvp
      · simp only [List.length_append, List.length_cons, List.length_nil]
        omega
    rw [if_neg ha] at h
    by_cases h2 : utf8_char_width a = 2
    · rw [if_pos h2] at h
      rcases rest with _ | ⟨b2, rest2⟩
      · injection h with he; subst he
        refine ⟨[], [a], rfl, .nil, by simp, by simp, ?_⟩
        exact not_startsWithChar_two h2 (by intro b t2 ht; exact absurd ht (by simp))
      dsimp only at h
      by_cases hb : utf8_is_cont_byte b2 = true
      · rw [if_pos hb] at h
        obtain ⟨pre, suf, hsplit, hvp, hvut, hsne, hnsc⟩ :=
          ih rest2 (i + 2) e (by simp only [List.length_cons] at hl; omega) h
        have hw := utf8_char_width_eq_two.mp h2
        refine ⟨[a, b2] ++ pre, suf, by simp [hsplit], ?_, ?_, hsne, hnsc⟩
        · exact .cons [a, b2] pre (by simp [utf8Char, hb]; omega) hvp
        · simp only [List.length_append, List.length_cons, List.length_nil]
          omega
      · rw [if_neg hb] at h
        injection h with he; subst he
        refine ⟨[], a :: b2 :: rest2, rfl, .nil, by simp, by simp, ?_⟩
        refine not_startsWithChar_two h2 ?_
        intro b t2 ht
        injection ht with hb1 hb2
        subst hb1
        exact Bool.eq_false_iff.mpr hb
    rw [if_neg h2] at h
    by_cases h3 : utf8_char_width a = 3
    · rw [if_pos h3] at h
      rcases rest with _ | ⟨b2, rest2⟩
      · injection h with he; subst he
        refine ⟨[], [a], rfl, .nil, by simp, by simp, ?_⟩
        exact not_startsWithChar_three h3 (by intro b t2 ht; exact absurd ht (by simp))
      dsimp only at h
      by_cases hs : utf8_valid_second_of_three a b2 = true
      · rw [if_pos hs] at h
        rcases rest2 with _ | ⟨b3, rest3⟩
        · injection h with he; subst he
          refine ⟨[], [a, b2], rfl, .nil, by simp, by simp, ?_⟩
          refine not_startsWithChar_three h3 ?_
          intro b t2 ht
          injection ht with hb1 hb2
          subst hb1; subst hb2
          exact Or.inr (by intro c t3 htc; exact absurd htc (by simp))
        dsimp only at h
        by_cases hc3 : utf8_is_cont_byte b3 = true
        · rw [if_pos hc3] at h
          obtain ⟨pre, suf, hsplit, hvp, hvut, hsne, hnsc⟩ :=
            ih rest3 (i + 3) e (by simp only [List.length_cons] at hl; omega) h
          refine ⟨[a, b2, b3] ++ pre, suf, by simp [hsplit], ?_, ?_, hsne, hnsc⟩
          · exact .cons [a, b2, b3] pre (by simp [utf8Char, hs, hc3]) hvp
          · simp only [List.length_append, List.length_cons, List.length_nil]
            omega
        · rw [if_neg hc3] at h
          injection h with he; subst he
          refine ⟨[], a :: b2 :: b3 :: rest3, rfl, .nil, by simp, by simp, ?_⟩
          refine not_startsWithChar_three h3 ?_
          intro b t2 ht
          injection ht with hb1 hb2
          subst hb1; subst hb2
          refine Or.inr ?_
          intro c t3 htc
          injection htc with hc1 hc2
          subst hc1
          exact Bool.eq_false_iff.mpr hc3
      · rw [if_neg hs] at h
        injection h with he; subst he
        refine ⟨[], a :: b2 :: rest2, rfl, .nil, by simp, by simp, ?_⟩
        refine not_startsWithChar_three h3 ?_
        intro b t2 ht
        injection ht with hb1 hb2
        subst hb1
        exact Or.inl (Bool.eq_false_iff.mpr hs)
    rw [if_neg h3] at h
    by_cases h4 : utf8_char_width a = 4
    · rw [if_pos h4] at h
      rcases rest with _ | ⟨b2, rest2⟩
      · injection h with he; subst he
        refine ⟨[], [a], rfl, .nil, by simp, by simp, ?_⟩
        exact not_startsWithChar_four h4 (by intro b t2 ht; exact absurd ht (by simp))
      dsimp only at h
      by_cases hs : utf8_valid_second_of_four a b2 = true
      · rw [if_pos hs] at h
        rcases rest2 with _ | ⟨b3, rest3⟩
        · injection h with he; subst he
          refine ⟨[], [a, b2], rfl, .nil, by simp, by simp, ?_⟩
          refine not_startsWithChar_four h4 ?_
          intro b t2 ht
          injection ht with hb1 hb2
          subst hb1; subst hb2
          exact Or.inr (by intro c t3 htc; exact absurd htc (by simp))
        dsimp only at h
        by_cases hc3 : utf8_is_cont_byte b3 = true
        · rw [if_pos hc3] at h
          rcases rest3 with _ | ⟨b4, rest4⟩
          · injection h with he; subst he
            refine ⟨[], [a, b2, b3], rfl, .nil, by simp, by simp, ?_⟩
            refine not_startsWithChar_four h4 ?_
            intro b t2 ht
            injection ht with hb1 hb2
            subst hb1; subst hb2
            refine Or.inr ?_
            intro c t3 htc
            injection htc with hc1 hc2
            subst hc1; subst hc2
            exact Or.inr (by intro d t4 htd; exact absurd htd (by simp))
          dsimp only at h
          by_cases hc4 : utf8_is_cont_byte b4 = true
          · rw [if_pos hc4] at h
            obtain ⟨pre, suf, hsplit, hvp, hvut, hsne, hnsc⟩ :=
              ih rest4 (i + 4) e (by simp only [List.length_cons] at hl; omega) h
            refine ⟨[a, b2, b3, b4] ++ pre, suf, by simp [hsplit], ?_, ?_,
              hsne, hnsc⟩
            · exact .cons [a, b2, b3, b4] pre
                (by simp [utf8Char, hs, hc3, hc4]) hvp
            · simp only [List.length_append, List.length_cons, List.length_nil]
              omega
          · rw [if_neg hc4] at h
            injection h with he; subst he
            refine ⟨[], a :: b2 :: b3 :: b4 :: rest4, rfl, .nil, by simp,
              by simp, ?_⟩
            refine not_startsWithChar_four h4 ?_
            intro b t2 ht
            injection ht with hb1 hb2
            subst hb1; subst hb2
            refine Or.inr ?_
            intro c t3 htc
            injection htc with hc1 hc2
            subst hc1; subst hc2
            refine Or.inr ?_
            intro d t4 htd
            injection htd with hd1 hd2
            subst hd1
            exact Bool.eq_false_iff.mpr hc4
        · rw [if_neg hc3] at h
          injection h with he; subst he
          refine ⟨[], a :: b2 :: b3 :: rest3, rfl, .nil, by simp, by simp, ?_⟩
          refine not_startsWithChar_four h4 ?_
          intro b t2 ht
          injection ht with hb1 hb2
          subst hb1; subst hb2
          refine Or.inr ?_
          intro c t3 htc
          injection htc with hc1 hc2
          subst hc1
          exact Or.inl (Bool.eq_false_iff.mpr hc3)
      · rw [if_neg hs] at h
        injection h with he; subst he
        refine ⟨[], a :: b2 :: rest2, rfl, .nil, by simp, by simp, ?_⟩
        refine not_startsWithChar_four h4 ?_
        intro b t2 ht
        injection ht with hb1 hb2
        subst hb1
        exact Or.inl (Bool.eq_false_iff.mpr hs)
    rw [if_neg h4] at h
    injection h with he; subst he
    rw [utf8_char_width_eq_two] at h2
    rw [utf8_char_width_eq_three] at h3
    rw [utf8_char_width_eq_four] at h4
    refine ⟨[], a :: rest, rfl, .nil, by simp, by simp, ?_⟩
    exact not_startsWithChar_zero (utf8_char_width_eq_zero.mpr (by omega))

/-- A well-formed character is nonempty and its length is determined by its
lead byte. -/
theorem utf8Char_length {c : List Nat} (hc : utf8Char c = true) :
    ∃ a t, c = a :: t ∧ c.length = utf8_char_width a := by
  rcases c with _ | ⟨a, _ | ⟨b, _ | ⟨c3, _ | ⟨d, _ | ⟨e, tail⟩⟩⟩⟩⟩
  · exact absurd hc (by simp [utf8Char])
  · refine ⟨a, [], rfl, ?_⟩
    simp only [utf8Char, decide_eq_true_eq] at hc
    simp [utf8_char_width, hc]
  · refine ⟨a, [b], rfl, ?_⟩
    simp only [utf8Char, Bool.and_eq_true, decide_eq_true_eq] at hc
    obtain ⟨⟨h1, h2⟩, -⟩ := hc
    exact (utf8_char_width_eq_two.mpr ⟨h1, by omega⟩).symm
  · refine ⟨a, [b, c3], rfl, ?_⟩
    simp only [utf8Char, Bool.and_eq_true] at hc
    have hb := utf8_valid_second_of_three_bounds hc.1
    exact (utf8_char_width_eq_three.mpr (by omega)).symm
  · refine ⟨a, [b, c3, d], rfl, ?_⟩
    simp only [utf8Char, Bool.and_eq_true] at hc
    have hb := utf8_valid_second_of_four_bounds hc.1.1
    exact (utf8_char_width_eq_four.mpr (by omega)).symm
  · exact absurd hc (by simp [utf8Char])

/-- Two well-formed characters reading the same byte stream are equal. -/
theorem utf8Char_prefix_unique {c c2 x x2 : List Nat} (hc : utf8Char c = true)
    (hc2 : utf8Char c2 = true) (heq : c ++ x = c2 ++ x2) : c = c2 := by
  obtain ⟨a, t, rfl, hlen⟩ := utf8Char_length hc
  obtain ⟨a2, t2, rfl, hlen2⟩ := utf8Char_length hc2
  have hhead : a = a2 := by
    simpa using congrArg List.headI heq
  subst hhead
  exact List.append_inj_left heq (by rw [hlen, hlen2])

/-- Unique-decomposition: a well-formed prefix of a stream that also carries a
longer well-formed prefix extends to it by whole characters. -/
theorem validUtf8_prefix_decomp :
    ∀ (u : List Nat), ValidUtf8 u → ∀ v s t, ValidUtf8 v → u ++ s = v ++ t →
      u.length ≤ v.length → ∃ w, v = u ++ w ∧ ValidUtf8 w := by
  intro u hu
  induction hu with
  | nil => intro v s t hv _ _; exact ⟨v, rfl, hv⟩
  | cons c rest hc _ ih =>
    intro v s t hv heq hlen
    cases hv with
    | nil =>
      exfalso
      obtain ⟨a, t0, rfl, -⟩ := utf8Char_length hc
      simp at hlen
    | cons c2 rest2 hc2 hrest2 =>
      simp only [List.append_assoc] at heq
      have hcc : c = c2 := utf8Char_prefix_unique hc hc2 heq
      subst hcc
      have heq2 : rest ++ s = rest2 ++ t := List.append_cancel_left heq
      have hlen2 : rest.length ≤ rest2.length := by
        simp only [List.length_append] at hlen; omega
      obtain ⟨w, hw, hvw⟩ := ih rest2 s t hrest2 heq2 hlen2
      exact ⟨w, by rw [hw, List.append_assoc], hvw⟩

/-- Two decompositions of a stream into a well-formed prefix followed by a
position where no character starts agree on the cut length. -/
theorem firstBad_cut_le {pre suf pre2 suf2 : List Nat}
    (hsplit : pre ++ suf = pre2 ++ suf2) (hvp : ValidUtf8 pre)
    (hvp2 : ValidUtf8 pre2) (hnsc : ¬ StartsWithChar suf)
    (hlen : pre.length ≤ pre2.length) : pre.length = pre2.length := by
  obtain ⟨w, hw, hvw⟩ :=
    validUtf8_prefix_decomp pre hvp pre2 suf suf2 hvp2 hsplit hlen
  cases hvw with
  | nil => simp [hw]
  | cons c rest hc hrest =>
    exfalso
    apply hnsc
    refine ⟨c, rest ++ suf2, hc, ?_⟩
    rw [hw] at hsplit
    simp only [List.append_assoc] at hsplit
    simpa using List.append_cancel_left hsplit

/-- A fully well-formed byte list has no first-invalid offset. -/
theorem validUtf8_no_bad {bs : List Nat} (hv : ValidUtf8 bs) (k : Nat) :
    ¬ FirstBadAt bs k := by
  rintro ⟨pre, suf, hsplit, hlp, hvp, hsne, hnsc⟩
  obtain ⟨w, hw, hvw⟩ := validUtf8_prefix_decomp pre hvp bs suf [] hv
    (by rw [hsplit, List.append_nil]) (by rw [hsplit]; simp)
  have hws : suf = w := by
    rw [hw] at hsplit
    exact (List.append_cancel_left hsplit).symm
  cases hvw with
  | nil => exact hsne (by rw [hws])
  | cons c rest hc hrest => exact hnsc ⟨c, rest, hc, by rw [hws]⟩

/-- On an input whose first invalid sequence begins at `k`, the validator
reports an error with `valid_up_to = k`. -/
theorem run_error_of_firstBad {bs : List Nat} {k : Nat} (h : FirstBadAt bs k) :
    ∃ el, run_utf8_validation bs 0 = .error ⟨k, el⟩ := by
  cases hrun : run_utf8_validation bs 0 with
  | ok u =>
    cases u
    exact absurd h (validUtf8_no_bad (run_ok_valid hrun) k)
  | error e =>
    obtain ⟨pre, suf, hsplit, hvp, hvut, hsne, hnsc⟩ :=
      run_error_decomp bs.length bs 0 e le_rfl hrun
    obtain ⟨pre2, suf2, hsplit2, hlp2, hvp2, hsne2, hnsc2⟩ := h
    have hpp : pre ++ suf = pre2 ++ suf2 := by rw [← hsplit, ← hsplit2]
    have hcut : pre.length = pre2.length := by
      rcases Nat.le_total pre.length pre2.length with hle | hle
      · exact firstBad_cut_le hpp hvp hvp2 hnsc hle
      · exact (firstBad_cut_le hpp.symm hvp2 hvp hnsc2 hle).symm
    have hk : e.valid_up_to = k := by omega
    cases e with
    | mk vut el =>
      refine ⟨el, ?_⟩
      rw [show vut = k from hk]

/-! ### Helper lemmas about `strlen`, slices and `from_array` -/

theorem take_strlen_eq_takeWhile (bytes : List Nat) :
    bytes.take (strlen bytes) = bytes.takeWhile fun b => b ≠ 0 := by
  induction bytes with
  | nil => rfl
  | cons b t ih =>
    by_cases hb : b = 0
    · simp [strlen, List.takeWhile_cons, hb]
    · simp [strlen, List.takeWhile_cons, hb, List.take_succ_cons] at ih ⊢
      exact ih

theorem strlen_le (bytes : List Nat) : strlen bytes ≤ bytes.length := by
  unfold strlen
  exact (bytes.takeWhile_sublist _).length_le

theorem readSlice_take {T : Type} (mem : Nat → T) (p n k : Nat) (h : k ≤ n) :
    (readSlice mem p n).take k = readSlice mem p k := by
  unfold readSlice
  rw [← List.map_take, List.take_range, Nat.min_eq_left h]

theorem readSlice_length {T : Type} (mem : Nat → T) (p n : Nat) :
    (readSlice mem p n).length = n := by
  simp [readSlice]

theorem from_array_len {p n : Nat} {m : Malloc} (h : from_array p n = some m) :
    m.len = n := by
  unfold from_array at h
  split at h
  all_goals first
    | exact Option.noConfusion h
    | (injection h with h; rw [← h]; try simp_all)

theorem from_array_nonnull_eq {p : Nat} (n : Nat) (hp : p ≠ 0) :
    from_array p n = some ⟨p, n⟩ := by
  unfold from_array
  rw [show (p == 0) = false from beq_eq_false_iff_ne.mpr hp]

/-! ### The claims -/

/-- C1: when a handle is destroyed, its destructor performs no deallocation if
the stored pointer is the sentinel, and otherwise passes the original stored
pointer value to the foreign deallocation routine exactly once (the free trace
of the one destructor run is the singleton of the stored address). -/
theorem drop_free_once (m : Malloc) :
    (m.ptr = DUMMY_PTR → m.drop = []) ∧
    (m.ptr ≠ DUMMY_PTR → m.drop = [m.ptr]) := by
  constructor <;> intro h <;> simp [Malloc.drop, h]

/-- Witness for C1 at the sentinel handle and at a real handle. -/
theorem drop_free_once_witness :
    Malloc.drop ⟨DUMMY_PTR, 0⟩ = [] ∧ Malloc.drop ⟨5, 3⟩ = [5] :=
  ⟨(drop_free_once ⟨DUMMY_PTR, 0⟩).1 rfl, (drop_free_once ⟨5, 3⟩).2 (by decide)⟩

/-- C2: for every non-null pointer `p` and length `n > 0`, `from_array(p, n)`
succeeds, and the borrowed view of the handle is exactly the `n` elements stored in
memory at `p`. -/
theorem from_array_nonnull_view (T : Type) (mem : Nat → T) (p n : Nat)
    (hp : p ≠ 0) (hn : 0 < n) :
    from_array p n = some ⟨p, n⟩ ∧
    Malloc.deref mem ⟨p, n⟩ = readSlice mem p n ∧
    (Malloc.deref mem ⟨p, n⟩).length = n :=
  ⟨from_array_nonnull_eq n hp, rfl, readSlice_length mem p n⟩

/-- Witness for C2 with the identity heap, `p = 2`, `n = 3`. -/
theorem from_array_nonnull_view_witness :
    from_array 2 3 = some ⟨2, 3⟩ ∧
    Malloc.deref (fun a => a) ⟨2, 3⟩ = readSlice (fun a => a) 2 3 ∧
    (Malloc.deref (fun a => a) ⟨2, 3⟩).length = 3 :=
  from_array_nonnull_view Nat (fun a => a) 2 3 (by decide) (by decide)

/-- C3: `from_array(null, n)` fails for every `n > 0`, and this is the only
failure case: `from_array p n` returns no handle exactly when `p` is null and
`n` is positive. -/
theorem from_array_failure_iff :
    (∀ n, 0 < n → from_array 0 n = none) ∧
    (∀ p n, from_array p n = none ↔ p = 0 ∧ 0 < n) := by
  have hnull : ∀ n, 0 < n → from_array 0 n = none := by
    intro n hn
    rcases n with _ | n
    · exact absurd hn (by omega)
    · rfl
  refine ⟨hnull, ?_⟩
  intro p n
  constructor
  · intro h
    by_cases hp : p = 0
    · subst hp
      rcases n with _ | n
      · exact absurd h (by decide)
      · exact ⟨rfl, by omega⟩
    · rw [from_array_nonnull_eq n hp] at h
      exact absurd h (by simp)
  · rintro ⟨rfl, hn⟩
    exact hnull n hn

/-- Witness for C3 at `n = 7`. -/
theorem from_array_failure_iff_witness :
    from_array 0 7 = none ∧ (from_array 0 7 = none ↔ (0 : Nat) = 0 ∧ 0 < 7) :=
  ⟨from_array_failure_iff.1 7 (by decide), from_array_failure_iff.2 0 7⟩

/-- C4: `from_array(null, 0)` succeeds, stores the fixed non-null sentinel
pointer, and the borrowed view is the empty array. -/
theorem from_array_null_zero (T : Type) (mem : Nat → T) :
    from_array 0 0 = some ⟨DUMMY_PTR, 0⟩ ∧ DUMMY_PTR ≠ 0 ∧
    Malloc.deref mem ⟨DUMMY_PTR, 0⟩ = ([] : List T) :=
  ⟨rfl, by decide, rfl⟩

/-- C7 counterexample: a zero-length handle built from the non-null pointer
`5` stores `5`, not the sentinel, and its destructor does pass `5` to the
deallocation routine. -/
theorem zero_len_handle_counterexample :
    from_array 5 0 = some ⟨5, 0⟩ ∧ (5 : Nat) ≠ DUMMY_PTR ∧
    Malloc.drop ⟨5, 0⟩ = [5] := by decide

/-- C7 amended: a zero-length array handle built from the *null* pointer
stores the fixed non-null sentinel; one built from a non-null pointer keeps
that pointer; and a handle storing the sentinel never passes it to the
deallocation routine. -/
theorem zero_len_handle_sentinel (m : Malloc) (p : Nat) (hp : p ≠ 0) :
    (from_array 0 0 = some ⟨DUMMY_PTR, 0⟩ ∧ DUMMY_PTR ≠ 0) ∧
    from_array p 0 = some ⟨p, 0⟩ ∧
    (m.ptr = DUMMY_PTR → m.drop = []) := by
  refine ⟨⟨rfl, by decide⟩, from_array_nonnull_eq 0 hp, ?_⟩
  intro h
  simp [Malloc.drop, h]

/-- Witness for the amended C7 at `p = 5` and the sentinel handle. -/
theorem zero_len_handle_sentinel_witness :
    (from_array 0 0 = some ⟨DUMMY_PTR, 0⟩ ∧ DUMMY_PTR ≠ 0) ∧
    from_array 5 0 = some ⟨5, 0⟩ ∧
    ((⟨DUMMY_PTR, 0⟩ : Malloc).ptr = DUMMY_PTR →
      Malloc.drop ⟨DUMMY_PTR, 0⟩ = []) :=
  zero_len_handle_sentinel ⟨DUMMY_PTR, 0⟩ 5 (by decide)

/-- C8 counterexample: the source implements no mutable dereference for the
handle; the shared borrow is the only one offered. -/
theorem no_mutable_borrow_counterexample :
    BorrowKind.mutable ∉ implementedBorrows := by decide

/-- C8 amended: every array handle produced by `from_array` borrows as a
read-only view of its `length` elements, and the length of the view is fixed
for the lifetime of the handle (it does not depend on the heap contents). -/
theorem deref_shared_fixed_len (T U : Type) (mem : Nat → T) (mem2 : Nat → U)
    (p n : Nat) (m : Malloc) (h : from_array p n = some m) :
    BorrowKind.shared ∈ implementedBorrows ∧
    (Malloc.deref mem m).length = n ∧
    (Malloc.deref mem m).length = (Malloc.deref mem2 m).length := by
  have hl := from_array_len h
  exact ⟨by decide, by simp [Malloc.deref, readSlice_length, hl],
    by simp [Malloc.deref, readSlice_length]⟩

/-- Witness for the amended C8 at `p = 2`, `n = 3`, two unrelated heaps. -/
theorem deref_shared_fixed_len_witness :
    BorrowKind.shared ∈ implementedBorrows ∧
    (Malloc.deref (fun a => a) ⟨2, 3⟩).length = 3 ∧
    (Malloc.deref (fun a => a) ⟨2, 3⟩).length =
      (Malloc.deref (fun _ => true) ⟨2, 3⟩).length :=
  deref_shared_fixed_len Nat Bool (fun a => a) (fun _ => true) 2 3 ⟨2, 3⟩
    (by decide)

/-- C9 counterexample: for the non-null pointer `1` (the sentinel address),
`from_array(1, 0)` succeeds and stores `1`, but the destructor performs no
deallocation at all, in particular it does not free `1`. -/
theorem from_array_addr_one_counterexample :
    from_array 1 0 = some ⟨1, 0⟩ ∧ Malloc.drop ⟨1, 0⟩ = [] ∧
    Malloc.drop ⟨1, 0⟩ ≠ [1] := by decide

/-- C9 amended: for every non-null pointer whose address is not the sentinel
value `0x1`, `from_array(p, 0)` succeeds storing `p` itself (not the
sentinel), the borrowed view is empty, and the destructor frees `p`. -/
theorem from_array_nonnull_zero (T : Type) (mem : Nat → T) (p : Nat)
    (hp : p ≠ 0) (hd : p ≠ DUMMY_PTR) :
    from_array p 0 = some ⟨p, 0⟩ ∧
    Malloc.deref mem ⟨p, 0⟩ = ([] : List T) ∧
    Malloc.drop ⟨p, 0⟩ = [p] :=
  ⟨from_array_nonnull_eq 0 hp, rfl, by simp [Malloc.drop, hd]⟩

/-- Witness for the amended C9 at `p = 5`. -/
theorem from_array_nonnull_zero_witness :
    from_array 5 0 = some ⟨5, 0⟩ ∧
    Malloc.deref (fun a => a) ⟨5, 0⟩ = ([] : List Nat) ∧
    Malloc.drop ⟨5, 0⟩ = [5] :=
  from_array_nonnull_zero Nat (fun a => a) 5 (by decide) (by decide)

/-- C10: the destructor skips deallocation exactly when the stored address
equals the fixed sentinel value `0x1`; consequently a handle constructed from
a genuine non-null pointer whose address is `0x1` is never freed. -/
theorem drop_compares_sentinel_address (m : Malloc) (n : Nat) :
    (m.drop = [] ↔ m.ptr = DUMMY_PTR) ∧
    from_array DUMMY_PTR n = some ⟨DUMMY_PTR, n⟩ ∧
    Malloc.drop ⟨DUMMY_PTR, n⟩ = [] := by
  refine ⟨?_, from_array_nonnull_eq n (by decide), by simp [Malloc.drop]⟩
  show (if m.ptr ≠ DUMMY_PTR then [m.ptr] else []) = [] ↔ m.ptr = DUMMY_PTR
  split_ifs with h
  · constructor
    · intro hc; exact absurd hc (by simp)
    · intro hc; exact absurd hc h
  · simpa using not_not.mp h

/-- C5: for a non-null pointer to a null-terminated byte sequence whose bytes
before the terminator are well-formed UTF-8, `from_c_str` succeeds, and the
borrowed text of the handle is exactly those bytes, the terminator excluded. -/
theorem from_c_str_valid (mem : Nat → Nat) (ptr : Nat) (bytes : List Nat)
    (hptr : ptr ≠ 0) (hterm : 0 ∈ bytes)
    (hval : ValidUtf8 (bytes.takeWhile fun b => b ≠ 0))
    (hmem : readSlice mem ptr bytes.length = bytes) :
    (from_c_str ptr bytes).1 = .ok ⟨ptr, strlen bytes⟩ ∧
    Malloc.deref mem ⟨ptr, strlen bytes⟩ =
      bytes.takeWhile fun b => b ≠ 0 := by
  constructor
  · simp only [from_c_str]
    rw [take_strlen_eq_takeWhile]
    unfold from_utf8
    rw [valid_run_ok hval 0]
    rfl
  · have h1 : readSlice mem ptr (strlen bytes) =
        (readSlice mem ptr bytes.length).take (strlen bytes) :=
      (readSlice_take mem ptr bytes.length (strlen bytes)
        (strlen_le bytes)).symm
    show readSlice mem ptr (strlen bytes) = _
    rw [h1, hmem, take_strlen_eq_takeWhile]

/-- Witness for C5: the test string "hey" with its terminator, at address 7. -/
theorem from_c_str_valid_witness :
    (from_c_str 7 [104, 101, 121, 0]).1 =
      .ok ⟨7, strlen [104, 101, 121, 0]⟩ ∧
    Malloc.deref (fun i => [104, 101, 121, 0].getD (i - 7) 0)
        ⟨7, strlen [104, 101, 121, 0]⟩ =
      [104, 101, 121, 0].takeWhile fun b => b ≠ 0 :=
  from_c_str_valid (fun i => [104, 101, 121, 0].getD (i - 7) 0) 7
    [104, 101, 121, 0] (by decide) (by decide)
    (.cons [104] [101, 121] (by decide)
      (.cons [101] [121] (by decide)
        (.cons [121] [] (by decide) .nil)))
    (by decide)

/-- C6: for a null-terminated byte sequence whose first invalid UTF-8
sequence begins at byte offset `k`, `from_c_str` fails with an encoding error
whose reported position is `k`, produces no handle, and its failure path
passes nothing to the foreign deallocation routine. -/
theorem from_c_str_invalid (ptr : Nat) (bytes : List Nat) (k : Nat)
    (hptr : ptr ≠ 0) (hterm : 0 ∈ bytes)
    (hbad : FirstBadAt (bytes.takeWhile fun b => b ≠ 0) k) :
    ∃ el, (from_c_str ptr bytes).1 = .error ⟨k, el⟩ ∧
      (from_c_str ptr bytes).2 = [] := by
  obtain ⟨el, herr⟩ := run_error_of_firstBad hbad
  refine ⟨el, ?_, rfl⟩
  simp only [from_c_str]
  rw [take_strlen_eq_takeWhile]
  unfold from_utf8
  rw [herr]
  rfl

/-- Witness for C6: the byte `0xFF` after a valid `h` makes offset 1 the first
invalid position. -/
theorem from_c_str_invalid_witness :
    ∃ el, (from_c_str 7 [104, 255, 0]).1 = .error ⟨1, el⟩ ∧
      (from_c_str 7 [104, 255, 0]).2 = [] :=
  from_c_str_invalid 7 [104, 255, 0] 1 (by decide) (by decide)
    ⟨[104], [255], by decide, by decide,
      .cons [104] [] (by decide) .nil, by decide,
      not_startsWithChar_zero (by decide)⟩
